import Mathlib

/-!
# Verification of the tinyfonts metrics/layout engine

A shallow embedding of the pure font logic of the tinyfonts repository
(`font.js`: the `Font` class, `measureText`, `wrapText`, `drawText`, and
`normalizeGlyphKeys`; `app.js`: the override setters `setXOffset`,
`setYOffset`, `setAdvanceWidth`).

Modelling conventions:
* JavaScript numbers that only ever hold integers in this code path are
  modelled as `Int` (pixel metrics, character codes, table values).
* A character's code (`charCodeAt`) is modelled as `Char.toNat`; this agrees
  with JavaScript for all characters of the basic multilingual plane, the
  range this bitmap-font engine is designed for.
* Strings are modelled as `List Char`.
* A JavaScript object used as a sparse numeric table is modelled as a
  function `Int → Option Int` (the lookup semantics of the object after
  construction-time key normalization); construction-time key handling
  itself is modelled separately on association lists of string keys.
* `maxWidth` may be `Infinity` in JavaScript, so it is modelled by a
  dedicated type with a point at infinity.
* JavaScript `x | 0` on an integer quotient truncates toward zero
  (`Int.tdiv`), `%` is the remainder with the sign of the dividend
  (`Int.tmod`), and `Math.floor(a / b)` on integers with positive divisor is
  floor division (`Int.fdiv`).
-/

namespace TinyFonts

/-- Whitespace characters as matched by the `\s` class of the regular
expression `/(\s)/g` that `wrapText` splits on, restricted to the ASCII
range (space, tab, line feed, vertical tab, form feed, carriage return). -/
def isWs (c : Char) : Bool :=
  c = ' ' || c = '\t' || c = '\n' || c = '\r' || c = '\x0b' || c = '\x0c'

/-- The character code of a character, as `String.charCodeAt` returns it
for characters of the basic multilingual plane. -/
def charCode (c : Char) : Int :=
  (c.toNat : Int)

/-- The pixel metrics of a `Font` instance after construction (`font.js`,
class `Font`).  The texture is reduced to its pixel dimensions, which is all
the pure layout logic reads from it.  The four override tables are modelled
by their post-construction lookup semantics. -/
structure Font where
  glyphWidth : Int
  glyphHeight : Int
  lineHeight : Int
  startCharCode : Int
  codepage : Int → Option Int
  advanceWidths : Int → Option Int
  xOffsets : Int → Option Int
  yOffsets : Int → Option Int
  textureWidth : Int
  textureHeight : Int

/-- `Font.advance` (`font.js`): `this.advanceWidths[charCode] ?? this.glyphWidth`. -/
def Font.advance (f : Font) (c : Int) : Int :=
  (f.advanceWidths c).getD f.glyphWidth

/-- The result record of `measureText`. -/
structure TextMetrics where
  width : Int
  height : Int
deriving DecidableEq, Repr

/-- The loop of `measureText` (`font.js`), carrying the accumulators
`width`, `lines` and `lineWidth` of the source. -/
def measureTextLoop (f : Font) : List Char → Int → Int → Int → TextMetrics
  | [], width, lines, lineWidth =>
      { width := max width lineWidth, height := lines * f.lineHeight }
  | c :: rest, width, lines, lineWidth =>
      if c = '\n' then
        measureTextLoop f rest (max width lineWidth) (lines + 1) 0
      else
        measureTextLoop f rest width lines
          (lineWidth + ((f.advanceWidths (charCode c)).getD f.glyphWidth))

/-- `measureText` (`font.js`): accumulators start at `width = 0`,
`lines = 1`, `lineWidth = 0`. -/
def measureText (f : Font) (t : List Char) : TextMetrics :=
  measureTextLoop f t 0 1 0

/-- `text.split(/(\s)/g)`: split at every whitespace character, keeping each
separator as its own one-character token.  The result always starts and ends
with a (possibly empty) run of non-whitespace characters, and empty tokens
appear between consecutive separators, exactly as in JavaScript. -/
def tokenize : List Char → List (List Char)
  | [] => [[]]
  | c :: rest =>
      if isWs c then
        [] :: [c] :: tokenize rest
      else
        match tokenize rest with
        | [] => [[c]]
        | tok :: toks => (c :: tok) :: toks

/-- `String.prototype.trim` removes whitespace from both ends; this is the
left-to-right half. -/
def trimLeft : List Char → List Char
  | [] => []
  | c :: rest => if isWs c then trimLeft rest else c :: rest

/-- `String.prototype.trim`. -/
def trim (s : List Char) : List Char :=
  ((trimLeft ((trimLeft s).reverse)).reverse)

/-- The `maxWidth` argument of `wrapText`: a JavaScript number that is
either a finite integer or `Infinity`. -/
inductive MaxWidth where
  | finite (m : Int)
  | infinity
deriving DecidableEq, Repr

/-- The comparison `width + wordWidth > maxWidth`: every finite value
compares below `Infinity`. -/
def gtMax (x : Int) : MaxWidth → Bool
  | .finite m => decide (m < x)
  | .infinity => false

/-- The token loop of `wrapText` (`font.js`), carrying the accumulators
`lines`, `line` and `width` of the source.  The second component counts how
often the overflow branch (`width + wordWidth > maxWidth`) fired; it is not
part of the source's state and does not influence the lines produced. -/
def wrapLoop (f : Font) (maxWidth : MaxWidth) :
    List (List Char) → List (List Char) → List Char → Int →
      List (List Char) × Nat
  | [], lines, line, _width =>
      let line := trim line
      (if line.isEmpty then lines else lines ++ [line], 0)
  | word :: rest, lines, line, width =>
      if word = [' '] then
        wrapLoop f maxWidth rest lines (line ++ [' ']) (width + f.advance 32)
      else if word = ['\n'] then
        wrapLoop f maxWidth rest (lines ++ [line]) [] 0
      else
        let wordWidth := (measureText f word).width
        if gtMax (width + wordWidth) maxWidth then
          let r := wrapLoop f maxWidth rest (lines ++ [line]) word wordWidth
          (r.1, r.2 + 1)
        else
          wrapLoop f maxWidth rest lines (line ++ word) (width + wordWidth)

/-- `wrapText` (`font.js`). -/
def wrapText (f : Font) (t : List Char) (maxWidth : MaxWidth) :
    List (List Char) :=
  (wrapLoop f maxWidth (tokenize t) [] [] 0).1

/-- How often the overflow branch of `wrapText` fires on a given input. -/
def overflowFlushes (f : Font) (t : List Char) (maxWidth : MaxWidth) : Nat :=
  (wrapLoop f maxWidth (tokenize t) [] [] 0).2

/-- One `ctx.drawImage(texture, sx, sy, sw, sh, dx, dy, sw, sh)` call issued
by `drawText`; destination size always equals source size there. -/
structure DrawCall where
  sx : Int
  sy : Int
  sw : Int
  sh : Int
  dx : Int
  dy : Int
deriving DecidableEq, Repr

/-- The source-cell resolution inside `drawText` (`font.js`):
`rows = Math.floor(texture.width / glyphWidth)` (the variable is named
`rows` in the source but holds the number of columns per row),
`col = index % rows` (JavaScript remainder, sign of the dividend),
`row = (index / rows) | 0` (truncation toward zero).  Returns `(sx, sy)`.
The degenerate `glyphWidth = 0` case (JavaScript division by zero yielding
`Infinity`) is outside this model; every theorem that uses this definition
assumes a positive column count. -/
def srcRect (f : Font) (code : Int) : Int × Int :=
  let rows := f.textureWidth.fdiv f.glyphWidth
  let index := code - f.startCharCode
  let col := index.tmod rows
  let row := index.tdiv rows
  (col * f.glyphWidth, row * f.glyphHeight)

/-- The character loop of `drawText` (`font.js`), returning the ordered
sequence of draw calls it issues.  `x` is the origin that a newline resets
the cursor to; `tx`, `ty` is the running cursor. -/
def drawTextLoop (f : Font) (x : Int) : List Char → Int → Int → List DrawCall
  | [], _tx, _ty => []
  | c :: rest, tx, ty =>
      let code := charCode c
      let xOffset := (f.xOffsets code).getD 0
      let yOffset := (f.yOffsets code).getD 0
      let sxy := srcRect f code
      let call : DrawCall :=
        { sx := sxy.1, sy := sxy.2, sw := f.glyphWidth, sh := f.glyphHeight,
          dx := tx + xOffset, dy := ty + yOffset }
      if c = '\n' then
        call :: drawTextLoop f x rest x (ty + f.lineHeight)
      else
        call :: drawTextLoop f x rest (tx + f.advance code) ty

/-- `drawText` (`font.js`) as the sequence of draw calls it issues against
the canvas context, in order. -/
def drawText (f : Font) (t : List Char) (x y : Int) : List DrawCall :=
  drawTextLoop f x t x y

/-- `App.setXOffset` (`app.js`): value `0` deletes the override entry,
anything else inserts or replaces it. -/
def setXOffset (f : Font) (c v : Int) : Font :=
  if v = 0 then
    { f with xOffsets := fun k => if k = c then none else f.xOffsets k }
  else
    { f with xOffsets := fun k => if k = c then some v else f.xOffsets k }

/-- `App.setYOffset` (`app.js`): value `0` deletes the override entry,
anything else inserts or replaces it. -/
def setYOffset (f : Font) (c v : Int) : Font :=
  if v = 0 then
    { f with yOffsets := fun k => if k = c then none else f.yOffsets k }
  else
    { f with yOffsets := fun k => if k = c then some v else f.yOffsets k }

/-- `App.setAdvanceWidth` (`app.js`): a value equal to `glyphWidth` deletes
the override entry, anything else inserts or replaces it. -/
def setAdvanceWidth (f : Font) (c v : Int) : Font :=
  if v = f.glyphWidth then
    { f with advanceWidths := fun k => if k = c then none else f.advanceWidths k }
  else
    { f with advanceWidths := fun k => if k = c then some v else f.advanceWidths k }

/-- The default font of the application (`app.js`), reduced to the entries
relevant here: `glyphWidth = 5`, `glyphHeight = 8`, `lineHeight = 9`,
`startCharCode = 32`, an advance-width override of `2` for code `73`
(`'I'`), and the 80 × 48 pixel texture `fonts/5x8.png`. -/
def fDemo : Font where
  glyphWidth := 5
  glyphHeight := 8
  lineHeight := 9
  startCharCode := 32
  codepage := fun _ => none
  advanceWidths := fun c => if c = 73 then some 2 else none
  xOffsets := fun _ => none
  yOffsets := fun _ => none
  textureWidth := 80
  textureHeight := 48

/-- Splitting a string at explicit newline characters (the reference
behaviour the specification compares `wrapText` at `maxWidth = Infinity`
against): one segment per newline-separated stretch, including empty ones. -/
def splitNewlines : List Char → List (List Char)
  | [] => [[]]
  | c :: rest =>
      if c = '\n' then
        [] :: splitNewlines rest
      else
        match splitNewlines rest with
        | [] => [[c]]
        | l :: ls => (c :: l) :: ls

/-- Splitting at newlines, then trimming the final segment and dropping it
when blank; all earlier segments are kept verbatim.  This is exactly the
line sequence `wrapText` produces when no overflow flush fires. -/
def splitAdjust (t : List Char) : List (List Char) :=
  let ls := splitNewlines t
  let last := trim (ls.getLast?.getD [])
  ls.dropLast ++ (if last.isEmpty then [] else [last])

/-- Shape of a token produced by `text.split(/(\s)/g)`: either a single
whitespace character or a (possibly empty) run of non-whitespace. -/
def TokOk (tok : List Char) : Prop :=
  (∃ c, tok = [c] ∧ isWs c = true) ∨ ∀ c ∈ tok, isWs c = false

lemma tokenize_spec (s : List Char) :
    ∃ tok toks, tokenize s = tok :: toks ∧ (∀ c ∈ tok, isWs c = false) ∧
      ∀ t ∈ toks, TokOk t := by
  induction s with
  | nil => exact ⟨[], [], rfl, by simp, by simp⟩
  | cons c rest ih =>
    obtain ⟨tok, toks, heq, htok, htoks⟩ := ih
    by_cases hws : isWs c
    · refine ⟨[], [c] :: tokenize rest, by simp [tokenize, hws], by simp, ?_⟩
      intro t ht
      rcases List.mem_cons.1 ht with rfl | ht
      · exact Or.inl ⟨c, rfl, hws⟩
      · rw [heq] at ht
        rcases List.mem_cons.1 ht with rfl | ht
        · exact Or.inr htok
        · exact htoks _ ht
    · refine ⟨c :: tok, toks, ?_, ?_, htoks⟩
      · simp only [tokenize, hws, if_neg, Bool.false_eq_true, not_false_iff, heq]
      · intro a ha
        rcases List.mem_cons.1 ha with rfl | ha
        · simpa using hws
        · exact htok _ ha

lemma tokenize_ne_nil (s : List Char) : tokenize s ≠ [] := by
  obtain ⟨tok, toks, heq, -, -⟩ := tokenize_spec s
  simp [heq]

lemma tokenize_flatten (s : List Char) : (tokenize s).flatten = s := by
  induction s with
  | nil => rfl
  | cons c rest ih =>
    by_cases hws : isWs c
    · simp [tokenize, hws, ih]
    · obtain ⟨tok, toks, heq, -, -⟩ := tokenize_spec rest
      rw [heq] at ih
      simp only [tokenize, hws, Bool.false_eq_true, if_neg, not_false_iff, heq]
      simpa using ih

lemma mem_trimLeft {c : Char} : ∀ {s : List Char}, c ∈ trimLeft s → c ∈ s := by
  intro s
  induction s with
  | nil => simp [trimLeft]
  | cons a rest ih =>
    simp only [trimLeft]
    split
    · exact fun h => List.mem_cons_of_mem _ (ih h)
    · exact fun h => h

lemma mem_trim {c : Char} {s : List Char} (h : c ∈ trim s) : c ∈ s := by
  unfold trim at h
  rw [List.mem_reverse] at h
  have h := mem_trimLeft h
  rw [List.mem_reverse] at h
  exact mem_trimLeft h

lemma trimLeft_all_ws : ∀ {s : List Char}, (∀ c ∈ s, isWs c = true) →
    trimLeft s = [] := by
  intro s
  induction s with
  | nil => intro; rfl
  | cons a rest ih =>
    intro h
    have ha : isWs a = true := h a (by simp)
    simp only [trimLeft, ha, if_true]
    exact ih fun c hc => h c (List.mem_cons_of_mem _ hc)

lemma trim_all_ws {s : List Char} (h : ∀ c ∈ s, isWs c = true) :
    trim s = [] := by
  unfold trim
  rw [trimLeft_all_ws h]
  simp [trimLeft_all_ws]

lemma trimLeft_wsfree : ∀ {s : List Char}, (∀ c ∈ s, isWs c = false) →
    trimLeft s = s := by
  intro s
  cases s with
  | nil => intro; rfl
  | cons a rest =>
    intro h
    have ha := h a (by simp)
    simp [trimLeft, ha]

lemma trim_wsfree {s : List Char} (h : ∀ c ∈ s, isWs c = false) :
    trim s = s := by
  unfold trim
  rw [trimLeft_wsfree h, trimLeft_wsfree, List.reverse_reverse]
  intro c hc
  exact h c (List.mem_reverse.1 hc)

lemma splitNewlines_ne_nil (s : List Char) : splitNewlines s ≠ [] := by
  cases s with
  | nil => simp [splitNewlines]
  | cons c rest =>
    simp only [splitNewlines]
    split
    · simp
    · split <;> simp

lemma splitNewlines_no_nl : ∀ {s : List Char}, (∀ c ∈ s, c ≠ '\n') →
    splitNewlines s = [s] := by
  intro s
  induction s with
  | nil => intro; rfl
  | cons c rest ih =>
    intro h
    have hc : c ≠ '\n' := h c (by simp)
    have hrest := ih fun a ha => h a (List.mem_cons_of_mem _ ha)
    simp [splitNewlines, hc, hrest]

lemma splitNewlines_append_nl :
    ∀ {l s : List Char}, (∀ c ∈ l, c ≠ '\n') →
      splitNewlines (l ++ '\n' :: s) = l :: splitNewlines s := by
  intro l
  induction l with
  | nil => intro s _; simp [splitNewlines]
  | cons c rest ih =>
    intro s h
    have hc : c ≠ '\n' := h c (by simp)
    have hrest := ih (s := s) fun a ha => h a (List.mem_cons_of_mem _ ha)
    simp only [List.cons_append, splitNewlines, hc, if_false, List.append_eq,
      hrest]

lemma splitAdjust_cons_nl {l s : List Char} (hl : ∀ c ∈ l, c ≠ '\n') :
    splitAdjust (l ++ '\n' :: s) = l :: splitAdjust s := by
  unfold splitAdjust
  rw [splitNewlines_append_nl hl]
  have hne := splitNewlines_ne_nil s
  cases h : splitNewlines s with
  | nil => exact absurd h hne
  | cons b l' =>
    simp [List.dropLast_cons₂, List.getLast?_cons_cons]

lemma tokOk_no_nl {word : List Char} (h : TokOk word) (hnl : word ≠ ['\n']) :
    ∀ c ∈ word, c ≠ '\n' := by
  rcases h with ⟨c, rfl, hws⟩ | hfree
  · intro a ha
    rcases List.mem_singleton.1 ha with rfl
    intro hEq
    exact hnl (by rw [hEq])
  · intro a ha hEq
    have := hfree a ha
    rw [hEq] at this
    exact absurd this (by decide)

lemma wrapLoop_infinity (f : Font) :
    ∀ (toks : List (List Char)) (lines : List (List Char)) (line : List Char)
      (width : Int), (∀ t ∈ toks, TokOk t) → (∀ c ∈ line, c ≠ '\n') →
      wrapLoop f .infinity toks lines line width =
        (lines ++ splitAdjust (line ++ toks.flatten), 0) := by
  intro toks
  induction toks with
  | nil =>
    intro lines line width _ hline
    simp only [wrapLoop, List.flatten_nil, List.append_nil, splitAdjust,
      splitNewlines_no_nl hline, List.dropLast_single, List.nil_append]
    simp only [List.getLast?_singleton, Option.getD_some]
    split <;> simp
  | cons word rest ih =>
    intro lines line width htoks hline
    have hrest : ∀ t ∈ rest, TokOk t :=
      fun t ht => htoks t (List.mem_cons_of_mem _ ht)
    by_cases hsp : word = [' ']
    · subst hsp
      rw [show wrapLoop f .infinity ([' '] :: rest) lines line width =
            wrapLoop f .infinity rest lines (line ++ [' '])
              (width + f.advance 32) from by simp [wrapLoop]]
      rw [ih lines (line ++ [' ']) _ hrest ?_]
      · simp [List.append_assoc]
      · intro c hc
        rcases List.mem_append.1 hc with hc | hc
        · exact hline c hc
        · rcases List.mem_singleton.1 hc with rfl
          decide
    · by_cases hnl : word = ['\n']
      · subst hnl
        rw [show wrapLoop f .infinity (['\n'] :: rest) lines line width =
              wrapLoop f .infinity rest (lines ++ [line]) [] 0 from by
            simp [wrapLoop, hsp]]
        rw [ih (lines ++ [line]) [] 0 hrest (by simp)]
        simp only [List.nil_append, List.flatten_cons, List.singleton_append]
        rw [splitAdjust_cons_nl hline]
        simp [List.append_assoc]
      · have hword := tokOk_no_nl (htoks word (List.mem_cons_self _ _)) hnl
        rw [show wrapLoop f .infinity (word :: rest) lines line width =
              wrapLoop f .infinity rest lines (line ++ word)
                (width + (measureText f word).width) from by
            simp [wrapLoop, hsp, hnl, gtMax]]
        rw [ih lines (line ++ word) _ hrest ?_]
        · simp [List.append_assoc]
        · intro c hc
          rcases List.mem_append.1 hc with hc | hc
          · exact hline c hc
          · exact hword c hc

lemma tokenize_tokOk (s : List Char) : ∀ x ∈ tokenize s, TokOk x := by
  obtain ⟨tok, toks, heq, htok, htoks⟩ := tokenize_spec s
  rw [heq]
  intro x hx
  rcases List.mem_cons.1 hx with rfl | hx
  · exact Or.inr htok
  · exact htoks _ hx

lemma tokenize_wsfree : ∀ {s : List Char}, (∀ c ∈ s, isWs c = false) →
    tokenize s = [s] := by
  intro s
  induction s with
  | nil => intro; rfl
  | cons c rest ih =>
    intro h
    have hc := h c (by simp)
    have hrest := ih fun a ha => h a (List.mem_cons_of_mem _ ha)
    simp [tokenize, hc, hrest]

lemma wrapLoop_no_nl (f : Font) (mw : MaxWidth) :
    ∀ (toks lines : List (List Char)) (line : List Char) (width : Int),
      (∀ t ∈ toks, TokOk t) → (∀ l ∈ lines, '\n' ∉ l) → '\n' ∉ line →
      ∀ l ∈ (wrapLoop f mw toks lines line width).1, '\n' ∉ l := by
  intro toks
  induction toks with
  | nil =>
    intro lines line width _ hlines hline l hl
    simp only [wrapLoop] at hl
    split at hl
    · exact hlines l hl
    · rcases List.mem_append.1 hl with hl | hl
      · exact hlines l hl
      · rcases List.mem_singleton.1 hl with rfl
        intro hmem
        exact hline (mem_trim hmem)
  | cons word rest ih =>
    intro lines line width htoks hlines hline
    have hrest : ∀ t ∈ rest, TokOk t :=
      fun t ht => htoks t (List.mem_cons_of_mem _ ht)
    by_cases hsp : word = [' ']
    · subst hsp
      rw [show (wrapLoop f mw ([' '] :: rest) lines line width).1 =
            (wrapLoop f mw rest lines (line ++ [' '])
              (width + f.advance 32)).1 from by simp [wrapLoop]]
      refine ih lines (line ++ [' ']) _ hrest hlines ?_
      intro h
      rcases List.mem_append.1 h with h | h
      · exact hline h
      · simp at h
    · by_cases hnl : word = ['\n']
      · subst hnl
        rw [show (wrapLoop f mw (['\n'] :: rest) lines line width).1 =
              (wrapLoop f mw rest (lines ++ [line]) [] 0).1 from by
            simp [wrapLoop, hsp]]
        refine ih (lines ++ [line]) [] 0 hrest ?_ (by simp)
        intro l hl
        rcases List.mem_append.1 hl with hl | hl
        · exact hlines l hl
        · rcases List.mem_singleton.1 hl with rfl
          exact hline
      · have hword := tokOk_no_nl (htoks word (List.mem_cons_self _ _)) hnl
        by_cases hfl :
            gtMax (width + (measureText f word).width) mw = true
        · rw [show (wrapLoop f mw (word :: rest) lines line width).1 =
                (wrapLoop f mw rest (lines ++ [line]) word
                  (measureText f word).width).1 from by
              simp [wrapLoop, hsp, hnl, hfl]]
          refine ih (lines ++ [line]) word _ hrest ?_ ?_
          · intro l hl
            rcases List.mem_append.1 hl with hl | hl
            · exact hlines l hl
            · rcases List.mem_singleton.1 hl with rfl
              exact hline
          · intro h
            exact hword '\n' h rfl
        · rw [show (wrapLoop f mw (word :: rest) lines line width).1 =
                (wrapLoop f mw rest lines (line ++ word)
                  (width + (measureText f word).width)).1 from by
              simp [wrapLoop, hsp, hnl, hfl]]
          refine ih lines (line ++ word) _ hrest hlines ?_
          intro h
          rcases List.mem_append.1 h with h | h
          · exact hline h
          · exact hword '\n' h rfl

/-- Claim C1, counterexample: with the default 5-pixel font, wrapping the
single word `"ab"` (width 10) at `maxWidth = 3` flushes an empty line before
the word, so the result is not the word alone on its own line as claimed:
the overflow flush is not guarded by the current line being non-empty. -/
theorem wrapText_overwide_first_word_flushes_empty :
    wrapText fDemo ['a', 'b'] (.finite 3) = [[], ['a', 'b']] ∧
      wrapText fDemo ['a', 'b'] (.finite 3) ≠ [['a', 'b']] := by
  constructor
  · decide
  · decide

/-- Claim C1, amended: in `wrapText` the overflow flush on a word token
fires whenever `width + wordWidth > maxWidth`, with no check that the
current line is non-empty; in particular a text consisting of a single
word wider than `maxWidth` yields an empty line followed by that word on
its own line (the word is never split). -/
theorem wrapText_single_overwide_word (f : Font) (w : List Char) (m : Int)
    (hne : w ≠ []) (hfree : ∀ c ∈ w, isWs c = false)
    (hover : m < (measureText f w).width) :
    wrapText f w (.finite m) = [[], w] := by
  unfold wrapText
  rw [tokenize_wsfree hfree]
  have hsp : w ≠ [' '] := by
    rintro rfl
    exact absurd (hfree ' ' (by simp)) (by decide)
  have hnl : w ≠ ['\n'] := by
    rintro rfl
    exact absurd (hfree '\n' (by simp)) (by decide)
  simp only [wrapLoop, if_neg hsp, if_neg hnl, gtMax, zero_add,
    decide_eq_true_eq, hover, if_true, trim_wsfree hfree]
  rw [if_neg (by simpa [List.isEmpty_iff] using hne)]
  simp

/-- Claim C1, witness for the amended theorem at a concrete input. -/
theorem wrapText_single_overwide_word_witness :
    (['a', 'b'] : List Char) ≠ [] ∧
      (∀ c ∈ (['a', 'b'] : List Char), isWs c = false) ∧
      (3 : Int) < (measureText fDemo ['a', 'b']).width ∧
      wrapText fDemo ['a', 'b'] (.finite 3) = [[], ['a', 'b']] :=
  ⟨by decide, by decide, by decide,
    wrapText_single_overwide_word fDemo ['a', 'b'] 3 (by decide) (by decide)
      (by decide)⟩

/-- Claim C2, counterexample: at `maxWidth = Infinity` the output of
`wrapText` is not the newline-split of the text, not even after trimming
each line: on `"a\n"` the split has a second, empty segment while
`wrapText` drops the blank final line entirely. -/
theorem wrapText_infinity_not_exact_split :
    (wrapText fDemo ['a', '\n'] .infinity).map trim ≠
      (splitNewlines ['a', '\n']).map trim := by decide

/-- Claim C2, amended: for every font and text, `wrapText` at
`maxWidth = Infinity` never triggers the overflow flush and returns the
newline-split of the text in which every segment before a newline is kept
verbatim while the final segment is trimmed and omitted when blank; in
particular `wrapText(font, "a\nb", Infinity)` is exactly the two lines
`"a"` and `"b"`. -/
theorem wrapText_infinity_splits_newlines (f : Font) (t : List Char) :
    wrapText f t .infinity = splitAdjust t ∧
      overflowFlushes f t .infinity = 0 ∧
      wrapText f ['a', '\n', 'b'] .infinity = [['a'], ['b']] := by
  have h := wrapLoop_infinity f (tokenize t) [] [] 0 (tokenize_tokOk t)
    (by simp)
  have h2 := wrapLoop_infinity f (tokenize ['a', '\n', 'b']) [] [] 0
    (tokenize_tokOk _) (by simp)
  refine ⟨?_, ?_, ?_⟩
  · unfold wrapText
    rw [h, List.nil_append, List.nil_append, tokenize_flatten]
  · unfold overflowFlushes
    rw [h]
  · unfold wrapText
    rw [h2]
    decide

/-- Claim C3, counterexample: a whitespace-only input does not always
produce an empty sequence of lines: a lone newline yields one empty line
(the newline branch pushes unconditionally), and a lone space at a small
`maxWidth` yields the line `" "` (flushed untrimmed by the overflow branch
on the empty trailing word token). -/
theorem wrapText_whitespace_only_nonempty_output :
    wrapText fDemo ['\n'] .infinity = [[]] ∧
      wrapText fDemo [' '] (.finite 3) = [[' ']] := by
  constructor
  · decide
  · decide

/-- Claim C3, amended: for every font, `wrapText` at `maxWidth = Infinity`
applied to the empty string or to any whitespace-only string containing no
newline character returns an empty sequence of lines. -/
theorem wrapText_whitespace_only_empty (f : Font) (t : List Char)
    (hws : ∀ c ∈ t, isWs c = true) (hnl : '\n' ∉ t) :
    wrapText f t .infinity = [] := by
  have h := wrapLoop_infinity f (tokenize t) [] [] 0 (tokenize_tokOk t)
    (by simp)
  unfold wrapText
  rw [h]
  simp only [List.nil_append, tokenize_flatten]
  have hnn : ∀ c ∈ t, c ≠ '\n' := fun c hc heq => hnl (heq ▸ hc)
  simp [splitAdjust, splitNewlines_no_nl hnn, trim_all_ws hws]

/-- Claim C3, witness for the amended theorem at a concrete input. -/
theorem wrapText_whitespace_only_empty_witness :
    (∀ c ∈ ([' ', '\t'] : List Char), isWs c = true) ∧
      '\n' ∉ ([' ', '\t'] : List Char) ∧
      wrapText fDemo [' ', '\t'] .infinity = [] :=
  ⟨by decide, by decide,
    wrapText_whitespace_only_empty fDemo [' ', '\t'] (by decide) (by decide)⟩

/-- Claim C4, confirmed: `Font.advance` returns the override entry when one
is present and `glyphWidth` otherwise.  It is a total function of the font
and an arbitrary integer character code, so it never fails. -/
theorem advance_lookup_cases (f : Font) (c : Int) :
    (∀ w, f.advanceWidths c = some w → f.advance c = w) ∧
      (f.advanceWidths c = none → f.advance c = f.glyphWidth) := by
  constructor
  · intro w hw
    simp [Font.advance, hw]
  · intro hw
    simp [Font.advance, hw]

/-- Claim C4, witness: on the default font, code 73 has an override of 2
and code 65 falls back to the glyph width 5. -/
theorem advance_lookup_cases_witness :
    fDemo.advance 73 = 2 ∧ fDemo.advance 65 = 5 :=
  ⟨(advance_lookup_cases fDemo 73).1 2 (by decide),
    (advance_lookup_cases fDemo 65).2 (by decide)⟩

/-- Claim C7, confirmed: setting an override to its implicit default
(`glyphWidth` for advance, 0 for offsets) removes the entry, after which
`advance` returns `glyphWidth`; applying the default-valued setter twice
equals applying it once; and a non-default value inserts or replaces the
entry. -/
theorem setters_default_removes_entry (f : Font) (c : Int) :
    (setAdvanceWidth f c f.glyphWidth).advanceWidths c = none ∧
      (setAdvanceWidth f c f.glyphWidth).advance c = f.glyphWidth ∧
      setAdvanceWidth (setAdvanceWidth f c f.glyphWidth) c f.glyphWidth =
        setAdvanceWidth f c f.glyphWidth ∧
      (setXOffset f c 0).xOffsets c = none ∧
      (setYOffset f c 0).yOffsets c = none ∧
      ∀ v, v ≠ f.glyphWidth →
        (setAdvanceWidth f c v).advanceWidths c = some v := by
  refine ⟨?_, ?_, ?_, ?_, ?_, ?_⟩
  · simp [setAdvanceWidth]
  · simp [setAdvanceWidth, Font.advance]
  · have h1 : setAdvanceWidth f c f.glyphWidth =
        { f with advanceWidths :=
            fun k => if k = c then none else f.advanceWidths k } := if_pos rfl
    rw [h1]
    show setAdvanceWidth
        { f with advanceWidths :=
            fun k => if k = c then none else f.advanceWidths k } c
        f.glyphWidth = _
    unfold setAdvanceWidth
    rw [if_pos rfl]
    congr 1
    funext k
    by_cases hk : k = c <;> simp [hk]
  · simp [setXOffset]
  · simp [setYOffset]
  · intro v hv
    simp [setAdvanceWidth, hv]

/-- Claim C7, witness: on the default font (glyph width 5), setting the
advance of code 73 to 5 removes the override and a lookup yields 5, while
setting it to 2 stores the entry. -/
theorem setters_default_removes_entry_witness :
    (setAdvanceWidth fDemo 73 5).advanceWidths 73 = none ∧
      (setAdvanceWidth fDemo 73 5).advance 73 = 5 ∧
      (setAdvanceWidth fDemo 73 2).advanceWidths 73 = some 2 :=
  ⟨(setters_default_removes_entry fDemo 73).1,
    (setters_default_removes_entry fDemo 73).2.1,
    (setters_default_removes_entry fDemo 73).2.2.2.2.2 2 (by decide)⟩

/-- The advance-width lookup `advanceWidths[code] ?? glyphWidth` that
`measureText` performs inline for each character. -/
def advChar (f : Font) (c : Char) : Int :=
  (f.advanceWidths (charCode c)).getD f.glyphWidth

lemma measureTextLoop_no_nl (f : Font) :
    ∀ (t : List Char) (width lines lineWidth : Int), (∀ c ∈ t, c ≠ '\n') →
      measureTextLoop f t width lines lineWidth =
        { width := max width (lineWidth + (t.map (advChar f)).sum),
          height := lines * f.lineHeight } := by
  intro t
  induction t with
  | nil =>
    intro width lines lineWidth _
    simp [measureTextLoop]
  | cons c rest ih =>
    intro width lines lineWidth h
    have hc : c ≠ '\n' := h c (by simp)
    rw [show measureTextLoop f (c :: rest) width lines lineWidth =
          measureTextLoop f rest width lines (lineWidth + advChar f c) from by
        simp [measureTextLoop, hc, advChar]]
    rw [ih _ _ _ fun a ha => h a (List.mem_cons_of_mem _ ha)]
    congr 1
    simp [add_assoc]

lemma wsfree_no_nl {l : List Char} (h : ∀ c ∈ l, isWs c = false) :
    ∀ c ∈ l, c ≠ '\n' :=
  fun c hc heq => absurd (heq ▸ h c hc) (by decide)

/-- Claim C8, amended: for whitespace-free strings whose characters all
have nonnegative advance widths, the measured width of a concatenation is
the sum of the measured widths of the parts, equals the sum of the
per-character advance lookups, and the measured height is one line. -/
theorem measureText_concat_additive (f : Font) (a b : List Char)
    (hwa : ∀ c ∈ a, isWs c = false) (hwb : ∀ c ∈ b, isWs c = false)
    (hna : ∀ c ∈ a, 0 ≤ advChar f c) (hnb : ∀ c ∈ b, 0 ≤ advChar f c) :
    (measureText f (a ++ b)).width =
        (measureText f a).width + (measureText f b).width ∧
      (measureText f (a ++ b)).width = ((a ++ b).map (advChar f)).sum ∧
      (measureText f (a ++ b)).height = f.lineHeight := by
  have hab : ∀ c ∈ a ++ b, c ≠ '\n' := by
    intro c hc
    rcases List.mem_append.1 hc with hc | hc
    · exact wsfree_no_nl hwa c hc
    · exact wsfree_no_nl hwb c hc
  have ha : 0 ≤ (a.map (advChar f)).sum :=
    List.sum_nonneg fun x hx => by
      obtain ⟨c, hc, rfl⟩ := List.mem_map.1 hx
      exact hna c hc
  have hb : 0 ≤ (b.map (advChar f)).sum :=
    List.sum_nonneg fun x hx => by
      obtain ⟨c, hc, rfl⟩ := List.mem_map.1 hx
      exact hnb c hc
  have key : ∀ (t : List Char), (∀ c ∈ t, c ≠ '\n') →
      0 ≤ (t.map (advChar f)).sum →
      (measureText f t).width = (t.map (advChar f)).sum := by
    intro t ht hs
    unfold measureText
    rw [measureTextLoop_no_nl f t 0 1 0 ht]
    simpa using hs
  have hsum : ((a ++ b).map (advChar f)).sum =
      (a.map (advChar f)).sum + (b.map (advChar f)).sum := by
    rw [List.map_append, List.sum_append]
  refine ⟨?_, ?_, ?_⟩
  · rw [key _ hab (hsum ▸ add_nonneg ha hb),
      key _ (wsfree_no_nl hwa) ha, key _ (wsfree_no_nl hwb) hb, hsum]
  · exact key _ hab (hsum ▸ add_nonneg ha hb)
  · unfold measureText
    rw [measureTextLoop_no_nl f _ 0 1 0 hab]
    simp

/-- Claim C8, witness: the claim's own scenario, glyph width 5, line height
9, advance override 2 for code 73: measuring `"AI"` gives width 7 = 5 + 2
and height 9. -/
theorem measureText_concat_additive_witness :
    (measureText fDemo ['A', 'I']).width = 7 ∧
      (measureText fDemo ['A', 'I']).height = 9 ∧
      (measureText fDemo ['A', 'I']).width =
        (measureText fDemo ['A']).width + (measureText fDemo ['I']).width := by
  have h := measureText_concat_additive fDemo ['A'] ['I'] (by decide)
    (by decide) (by decide) (by decide)
  exact ⟨h.1.trans (by decide), h.2.2.trans (by decide), h.1⟩

/-- A font with a negative advance-width override for code 65 (`'A'`); the
editor can produce such a font by decrementing an advance width below
zero. -/
def fNeg : Font :=
  { fDemo with advanceWidths := fun c => if c = 65 then some (-5) else none }

/-- Claim C8, counterexample: with a negative advance-width override the
measured width of a concatenation of two whitespace-free strings is not the
sum of the measured widths of the parts, because `measureText` clamps the
result at the running maximum, which starts at 0. -/
theorem measureText_concat_not_additive_neg :
    (∀ c ∈ (['A'] : List Char), isWs c = false) ∧
      (∀ c ∈ (['B'] : List Char), isWs c = false) ∧
      (measureText fNeg (['A'] ++ ['B'])).width ≠
        (measureText fNeg ['A']).width + (measureText fNeg ['B']).width := by
  refine ⟨by decide, by decide, by decide⟩

/-- Decimal digit test for `parseInt`. -/
def isDigit10 (c : Char) : Bool :=
  '0' ≤ c && c ≤ '9'

/-- The numeric value of a run of decimal digits. -/
def digitsToNat (l : List Char) : Nat :=
  l.foldl (fun acc c => acc * 10 + (c.toNat - 48)) 0

/-- JavaScript `parseInt(key)` with radix 10: skip leading whitespace,
accept an optional sign, then read a maximal run of decimal digits,
ignoring any trailing characters; `none` models `NaN`.  (The hexadecimal
`0x` prefix form is not modelled; it changes only the parsed value, never
the finiteness of the result, which is all `normalizeGlyphKeys`
inspects.) -/
def jsParseInt (s : String) : Option Int :=
  let l := s.data.dropWhile fun c => isWs c
  match l with
  | '-' :: rest =>
      let d := rest.takeWhile isDigit10
      if d.isEmpty then none else some (-(digitsToNat d : Int))
  | '+' :: rest =>
      let d := rest.takeWhile isDigit10
      if d.isEmpty then none else some ((digitsToNat d : Int))
  | _ =>
      let d := l.takeWhile isDigit10
      if d.isEmpty then none else some ((digitsToNat d : Int))

/-- The string a JavaScript object key coerces a number to:
`String(n)`, the canonical decimal rendering. -/
def intKeyStr (n : Int) : String :=
  toString n

/-- The per-key normalization of `normalizeGlyphKeys` (`font.js`): a key
whose `parseInt` is finite is kept unchanged, any other key is replaced by
`charCodeAt(0)` of the key, which the object then stores as its decimal
string (for the empty string `charCodeAt(0)` is `NaN`, stored as
`"NaN"`). -/
def normKey (k : String) : String :=
  match jsParseInt k with
  | some _ => k
  | none =>
      match k.data with
      | [] => "NaN"
      | c :: _ => intKeyStr (charCode c)

/-- `normalizeGlyphKeys` (`font.js`) acting on the entry list of the
supplied table (`Object.entries` order). -/
def normalizeGlyphKeys (tbl : List (String × Int)) : List (String × Int) :=
  tbl.map fun e => (normKey e.1, e.2)

/-- Lookup in the object `Object.fromEntries` builds from an entry list:
the last entry with a given key wins. -/
def objLookup (tbl : List (String × Int)) (k : String) : Option Int :=
  (tbl.reverse.find? fun e => e.1 == k).map fun e => e.2

/-- Looking up an integer character code in the normalized table:
JavaScript coerces the numeric index to its canonical decimal string. -/
def lookupByCode (tbl : List (String × Int)) (c : Int) : Option Int :=
  objLookup (normalizeGlyphKeys tbl) (intKeyStr c)

/-- The character code the claim itself assigns to a supplied key: a
numeric-string key (one that reads back as the canonical rendering of the
integer it parses to) is parsed as an integer; any other key is
reinterpreted as the character code of its first character. -/
def specKeyCode (k : String) : Int :=
  match jsParseInt k with
  | some n => if intKeyStr n == k then n else charCode (k.data.headD ' ')
  | none => charCode (k.data.headD ' ')

/-- Keys for which construction-time normalization is faithful: either a
canonical decimal integer string, or a non-empty key on which `parseInt`
is `NaN`. -/
def goodKey (k : String) : Bool :=
  (match jsParseInt k with
    | some n => intKeyStr n == k
    | none => !k.data.isEmpty)

lemma normKey_eq_spec {k : String} (h : goodKey k = true) :
    normKey k = intKeyStr (specKeyCode k) := by
  unfold goodKey at h
  cases hj : jsParseInt k with
  | some n =>
    rw [hj] at h
    have hcanon : intKeyStr n = k := eq_of_beq (by simpa using h)
    simp [normKey, specKeyCode, hj, hcanon]
  | none =>
    rw [hj] at h
    cases hd : k.data with
    | nil => simp [hd] at h
    | cons c rest => simp [normKey, specKeyCode, hj, hd]

/-- Claim C6, counterexample: the key `"1x"` is not a numeric string, so
per the claim it should be reinterpreted as the character code of `'1'`
(49) and then be found by an integer lookup at 49; but `parseInt("1x")` is
the finite value 1, so `normalizeGlyphKeys` keeps the key `"1x"` verbatim
and no lookup by an integer character code ever finds the entry. -/
theorem normalizeGlyphKeys_partial_numeric_key_lost :
    specKeyCode "1x" = 49 ∧
      normalizeGlyphKeys [("1x", 7)] = [("1x", 7)] ∧
      lookupByCode [("1x", 7)] 49 = none := by
  refine ⟨by decide, by decide, by decide⟩

lemma objLookup_of_mem :
    ∀ {tbl : List (String × Int)} {k : String} {v : Int},
      (tbl.map fun e => e.1).Nodup → (k, v) ∈ tbl →
      objLookup tbl k = some v := by
  intro tbl
  induction tbl with
  | nil => intro k v _ hmem; cases hmem
  | cons e rest ih =>
    intro k v hnd hmem
    simp only [List.map_cons, List.nodup_cons] at hnd
    obtain ⟨hk, hnd⟩ := hnd
    unfold objLookup
    rw [List.reverse_cons, List.find?_append]
    rcases List.mem_cons.1 hmem with heq | hmem
    · have hek : e.1 = k := by rw [← heq]
      have hnone : rest.reverse.find? (fun x => x.1 == k) = none := by
        rw [List.find?_eq_none]
        intro x hx hbeq
        have hxk : x.1 = k := eq_of_beq hbeq
        apply hk
        rw [hek, ← hxk]
        exact List.mem_map.2 ⟨x, List.mem_reverse.1 hx, rfl⟩
      rw [hnone, Option.none_or]
      rw [← heq]
      simp
    · have hrest := ih hnd hmem
      unfold objLookup at hrest
      cases hf : rest.reverse.find? (fun x => x.1 == k) with
      | none =>
        rw [hf] at hrest
        simp at hrest
      | some p =>
        rw [hf] at hrest
        exact hrest

/-- Claim C6, amended: construction normalizes each supplied key exactly
once, keeping any key whose `parseInt` is finite and replacing any other
key by the character code of its first character; consequently, when every
key is either a canonical decimal integer string or a non-`parseInt`-able
non-empty string (and the normalized keys do not collide), a lookup by the
key's integer character code finds every supplied entry, so
character-keyed and code-keyed tables behave identically.  Keys that
`parseInt` only partially consumes (such as `"1x"` or `"07"`) are kept
verbatim and are not reachable by any integer lookup. -/
theorem normalizeGlyphKeys_good_keys_found (tbl : List (String × Int))
    (hgood : ∀ e ∈ tbl, goodKey e.1 = true)
    (hnd : ((normalizeGlyphKeys tbl).map fun e => e.1).Nodup) :
    ∀ k v, (k, v) ∈ tbl → lookupByCode tbl (specKeyCode k) = some v := by
  intro k v hmem
  unfold lookupByCode
  have hmem2 : (normKey k, v) ∈ normalizeGlyphKeys tbl :=
    List.mem_map.2 ⟨(k, v), hmem, rfl⟩
  rw [← normKey_eq_spec (hgood _ hmem)]
  exact objLookup_of_mem hnd hmem2

/-- Claim C6, witness: a table keyed by the character `"a"` and the numeric
string `"98"`; after construction both entries are found by integer
lookup, the first at the char code 97 of `'a'`. -/
theorem normalizeGlyphKeys_good_keys_found_witness :
    (∀ e ∈ [("a", (1 : Int)), ("98", 2)], goodKey e.1 = true) ∧
      ((normalizeGlyphKeys [("a", (1 : Int)), ("98", 2)]).map
        fun e => e.1).Nodup ∧
      specKeyCode "a" = 97 ∧
      lookupByCode [("a", (1 : Int)), ("98", 2)] (specKeyCode "a") =
        some 1 :=
  ⟨by decide, by decide, by decide,
    normalizeGlyphKeys_good_keys_found [("a", (1 : Int)), ("98", 2)]
      (by decide) (by decide) "a" 1 (by decide)⟩

/-- The source-cell formula exactly as the specification's Layout contract
states it, with mathematical operations: `column = index mod columnsPerRow`
(`Int.emod`, the nonnegative remainder) and
`row = floor(index / columnsPerRow)` (`Int.fdiv`, floor division). -/
def specSrcRect (f : Font) (code : Int) : Int × Int :=
  let cols := f.textureWidth.fdiv f.glyphWidth
  let index := code - f.startCharCode
  ((index.emod cols) * f.glyphWidth, (index.fdiv cols) * f.glyphHeight)

/-- Claim C5, counterexample: for a character code below `startCharCode`
(here the newline, code 10, which `drawText` does draw), the code's
JavaScript `%` and `| 0` give column `-6`, row `-1` and source position
`(-30, -8)`, while the claimed mathematical `mod`/`floor` formulas give
column `10`, row `-2` and source position `(50, -16)`. -/
theorem srcRect_formula_fails_below_start :
    srcRect fDemo 10 = (-30, -8) ∧ specSrcRect fDemo 10 = (50, -16) ∧
      srcRect fDemo 10 ≠ specSrcRect fDemo 10 := by
  refine ⟨by decide, by decide, by decide⟩

/-- Claim C5, amended: for every character code at or above
`startCharCode` (and a positive column count), the rendering path resolves
the source cell by `index = code - startCharCode`,
`columnsPerRow = floor(textureWidth / glyphWidth)`,
`column = index mod columnsPerRow`, `row = floor(index / columnsPerRow)`,
and source position `(column * glyphWidth, row * glyphHeight)` with size
`(glyphWidth, glyphHeight)`; below `startCharCode` the code's truncating
operations deviate from these formulas. -/
theorem srcRect_formula_nonneg_index (f : Font) (c : Int)
    (hc : f.startCharCode ≤ c)
    (hcols : 0 < f.textureWidth.fdiv f.glyphWidth) :
    srcRect f c = specSrcRect f c := by
  simp only [srcRect, specSrcRect]
  have hidx : 0 ≤ c - f.startCharCode := sub_nonneg.2 hc
  have hcols' : 0 ≤ f.textureWidth.fdiv f.glyphWidth := le_of_lt hcols
  rw [Int.tmod_eq_emod hidx hcols', Int.tdiv_eq_ediv hidx hcols',
    Int.fdiv_eq_ediv _ hcols']
  rfl

/-- Claim C5, witness: the claim's own scenario: glyph size 5 × 8, start
code 32, texture width 80 (16 columns); code 97 has index 65, column 1,
row 4 and source rectangle `(5, 32, 5, 8)`. -/
theorem srcRect_formula_nonneg_index_witness :
    fDemo.startCharCode ≤ 97 ∧
      (0 : Int) < fDemo.textureWidth.fdiv fDemo.glyphWidth ∧
      fDemo.textureWidth.fdiv fDemo.glyphWidth = 16 ∧
      srcRect fDemo 97 = (5, 32) ∧
      fDemo.glyphWidth = 5 ∧ fDemo.glyphHeight = 8 :=
  ⟨by decide, by decide, by decide,
    (srcRect_formula_nonneg_index fDemo 97 (by decide) (by decide)).trans
      (by decide),
    by decide, by decide⟩

/-- The cursor positions at which the characters of a text are drawn, as
the specification's Renderer contract states them: the cursor starts at the
origin; after a newline it resets `tx` to the origin x and advances `ty` by
`lineHeight`; after any other character it advances `tx` by the advance
width. -/
def specCursors (f : Font) (x : Int) : List Char → Int × Int → List (Int × Int)
  | [], _ => []
  | c :: rest, p =>
      p :: specCursors f x rest
        (if c = '\n' then (x, p.2 + f.lineHeight)
          else (p.1 + f.advance (charCode c), p.2))

/-- The draw call for one character at a cursor position, as the
specification states it: copy the character's source cell to destination
`(tx + xOffset, ty + yOffset)` at the cell's pixel size. -/
def specDrawCall (f : Font) (c : Char) (p : Int × Int) : DrawCall :=
  { sx := (srcRect f (charCode c)).1, sy := (srcRect f (charCode c)).2,
    sw := f.glyphWidth, sh := f.glyphHeight,
    dx := p.1 + (f.xOffsets (charCode c)).getD 0,
    dy := p.2 + (f.yOffsets (charCode c)).getD 0 }

lemma specCursors_length (f : Font) (x : Int) :
    ∀ (t : List Char) (p : Int × Int), (specCursors f x t p).length = t.length := by
  intro t
  induction t with
  | nil => intro p; rfl
  | cons c rest ih => intro p; simp [specCursors, ih]

lemma drawTextLoop_eq_spec (f : Font) (x : Int) :
    ∀ (t : List Char) (tx ty : Int),
      drawTextLoop f x t tx ty =
        List.zipWith (specDrawCall f) t (specCursors f x t (tx, ty)) := by
  intro t
  induction t with
  | nil => intro tx ty; rfl
  | cons c rest ih =>
    intro tx ty
    by_cases hc : c = '\n'
    · subst hc
      simp only [drawTextLoop, specCursors, List.zipWith_cons_cons,
        if_pos rfl, if_true]
      rw [ih]
      rfl
    · simp only [drawTextLoop, specCursors, List.zipWith_cons_cons,
        if_neg hc]
      rw [ih]
      rfl

/-- Claim C9, confirmed: `drawText` issues exactly one draw call per
character of the text, in left-to-right order (newlines included), each
copying that character's source cell to `(tx + xOffset, ty + yOffset)`
where the cursor positions follow the claimed recurrence; being a function
of its arguments, the sequence is deterministic. -/
theorem drawText_calls_spec (f : Font) (t : List Char) (x y : Int) :
    (drawText f t x y).length = t.length ∧
      drawText f t x y =
        List.zipWith (specDrawCall f) t (specCursors f x t (x, y)) := by
  have h := drawTextLoop_eq_spec f x t x y
  constructor
  · unfold drawText
    rw [h, List.length_zipWith, specCursors_length, min_self]
  · exact h

/-- Claim C10, confirmed: no line returned by `wrapText` contains a newline
character, for any font, text and maximum width. -/
theorem wrapText_lines_no_newline (f : Font) (t : List Char) (mw : MaxWidth)
    (l : List Char) (hl : l ∈ wrapText f t mw) : '\n' ∉ l :=
  wrapLoop_no_nl f mw (tokenize t) [] [] 0 (tokenize_tokOk t) (by simp)
    (by simp) l hl

/-- Claim C10, witness at a concrete input. -/
theorem wrapText_lines_no_newline_witness :
    (['a'] ∈ wrapText fDemo ['a', '\n', 'b'] .infinity) ∧
      '\n' ∉ (['a'] : List Char) :=
  ⟨by decide,
    wrapText_lines_no_newline fDemo ['a', '\n', 'b'] .infinity ['a']
      (by decide)⟩

end TinyFonts
